import Mathlib

/-!
Shallow embedding of the lines2pmtiles tiling core (src/lib.rs, src/math.rs).

Machine `f64` values are modelled as exact rationals.  External collaborators
are either parameters of the model or spec-modelled definitions, each marked
at its declaration:
* the web-mercator reprojection and the lon/lat normalization of
  `lon_lat_to_tile` (transcendental: `tan`, `asinh`, radians) are kept as
  given normalized inputs or as a `reproject` parameter;
* the tile-local affine transform (`MapGrid::tile_transform`, mvt crate) is a
  `transform` parameter;
* the encoded byte length of a geometry (`GeomEncoder::encode`, mvt crate) is
  an `encLen` parameter;
* the archive tile identifier (`pmtiles2::util::tile_id`) and the validating
  `TileId::new` constructor are modelled from the spec.
-/

namespace Lines2Pmtiles

/-- JSON values (`serde_json::Value`), with numbers as exact rationals. -/
inductive JsonValue where
  | null : JsonValue
  | bool (b : Bool) : JsonValue
  | num (q : ℚ) : JsonValue
  | str (s : String) : JsonValue
  | arr (xs : List JsonValue) : JsonValue
  | obj (kvs : List (String × JsonValue)) : JsonValue

/-- A JSON object (`geojson::JsonObject`), as an association list; serde's map
preserves a deterministic (sorted) key order, so a list is adequate. -/
abbrev JsonObject : Type := List (String × JsonValue)

/-- Lookup of a key in a JSON object (`props.get(key)`). -/
def jsonGet (props : JsonObject) (key : String) : Option JsonValue :=
  (props.find? (fun kv => kv.1 == key)).map Prod.snd

/-- Model of `serde_json::Value::as_f64`: numbers yield their value, every
other variant yields `None` (lib.rs:138). -/
def JsonValue.as_f64 : JsonValue → Option ℚ
  | .num q => some q
  | _ => none

/-- Geometry (`geo_types::Geometry`): only line-strings carry meaning to this
core; every other kind is inert (spec section 3). -/
inductive Geom where
  | lineString (pts : List (ℚ × ℚ)) : Geom
  | otherKind : Geom

/-- The in-tree feature record (lib.rs:107-110). -/
structure TreeFeature where
  geometry : Geom
  properties : Option JsonObject

/-- Rust `f64::round`: round half away from zero. -/
def rustRound (q : ℚ) : Int :=
  if 0 ≤ q then ⌊q + 1 / 2⌋ else -⌊-q + 1 / 2⌋

/-- Rust `as usize` on a float value already rounded to an integer: saturating
cast, negatives to 0 and values above `usize::MAX` to `2 ^ 64 - 1`. -/
def usizeSat (i : Int) : Nat := (min i ((2 : Int) ^ 64 - 1)).toNat

/-- `TreeFeature::get_sort_key` (lib.rs:135-141): look the key up in the
properties, read it as a number, then `num.round() as usize`. -/
def TreeFeature.get_sort_key (f : TreeFeature) (key : String) : Option Nat := do
  let props ← f.properties
  let value ← jsonGet props key
  let num ← value.as_f64
  pure (usizeSat (rustRound num))

/-- The sort key actually used by `make_tile`: `get_sort_key(key).unwrap_or(0)`
(lib.rs:186). -/
def getSortKeyD (key : String) (f : TreeFeature) : Nat :=
  (f.get_sort_key key).getD 0

/-- Comparison on (original index, element) pairs by key and then by index.
Rust `Vec::sort_by_key` is a stable sort; extensionally a stable sort by key
is exactly a sort by the pair (key, original position), which is how it is
modelled here. -/
def lexRel (keyOf : α → Nat) (a b : Nat × α) : Prop :=
  keyOf a.2 < keyOf b.2 ∨ (keyOf a.2 = keyOf b.2 ∧ a.1 ≤ b.1)

instance (keyOf : α → Nat) : DecidableRel (lexRel keyOf) := fun a b => by
  unfold lexRel; infer_instance

/-- Sort index-tagged elements by (key, original index). -/
def sortByKeyIdx (keyOf : α → Nat) (l : List (Nat × α)) : List (Nat × α) :=
  List.insertionSort (lexRel keyOf) l

/-- Model of Rust stable `Vec::sort_by_key` (lib.rs:186). -/
def rustSortByKey (keyOf : α → Nat) (l : List α) : List α :=
  (sortByKeyIdx keyOf l.enum).map Prod.snd

/-- lib.rs:185-188: sort the candidates ascending by the configured key, then
reverse the whole vector. -/
def prioritize (key : String) (features : List TreeFeature) : List TreeFeature :=
  (rustSortByKey (getSortKeyD key) features).reverse

/-- `Options` (lib.rs:21-27). -/
structure Options where
  layer_name : String
  sort_by_key : Option String
  zoom_levels : List Nat
  limit_size_bytes : Option Nat

/-- One feature as written into a tile layer: its id (`layer.num_features()`
at insertion time, lib.rs:247), the scaled tile-local points handed to the
geometry encoder (lib.rs:223), and its properties (turned into tags,
lib.rs:253-276). -/
structure TileFeature where
  id : Nat
  geom : List (ℚ × ℚ)
  properties : Option JsonObject

/-- The vertex-inclusion test of lib.rs:213-217: tile-local coordinates inside
the closed unit square. -/
def inUnitSquare (p : ℚ × ℚ) : Prop :=
  0 ≤ p.1 ∧ p.1 ≤ 1 ∧ 0 ≤ p.2 ∧ p.2 ≤ 1

instance : DecidablePred inUnitSquare := fun p => by
  unfold inUnitSquare; infer_instance

/-- The points handed to the geometry encoder for a geometry: every vertex,
transformed to tile-local space and scaled by the 4096 extent (lib.rs:204-224).
Non-line-strings feed the encoder nothing. -/
def scaledGeom (transform : ℚ × ℚ → ℚ × ℚ) : Geom → List (ℚ × ℚ)
  | .lineString pts => (pts.map transform).map (fun p => (p.1 * 4096, p.2 * 4096))
  | .otherKind => []

/-- Whether `make_tile` sets its `any` flag for a feature: the geometry is a
line-string and some transformed vertex lies in the unit square
(lib.rs:202-219). -/
def includedB (transform : ℚ × ℚ → ℚ × ℚ) (f : TreeFeature) : Bool :=
  match f.geometry with
  | .lineString pts => (pts.map transform).any (fun p => decide (inUnitSquare p))
  | .otherKind => false

/-- Whether the running byte counter exceeds the configured budget
(lib.rs:239-240): strict `bytes_so_far > limit`. -/
def overLimit (limit : Option Nat) (bytes : Nat) : Bool :=
  match limit with
  | none => false
  | some b => b < bytes

/-- The feature loop of `make_tile` (lib.rs:198-279): accumulated layer
features and the running byte counter; returns the layer contents together
with the `skipped` truncation flag (lib.rs:197, 241). -/
def make_tile_loop (transform : ℚ × ℚ → ℚ × ℚ) (encLen : List (ℚ × ℚ) → Nat)
    (limit : Option Nat) :
    List TreeFeature → List TileFeature → Nat → List TileFeature × Bool
  | [], layer, _ => (layer, false)
  | f :: rest, layer, bytes =>
    if includedB transform f then
      let scaled := scaledGeom transform f.geometry
      let bytes2 := bytes + encLen scaled
      if overLimit limit bytes2 then (layer, true)
      else make_tile_loop transform encLen limit rest
        (layer ++ [⟨layer.length, scaled, f.properties⟩]) bytes2
    else make_tile_loop transform encLen limit rest layer bytes

/-- The optional priority sort at the top of `make_tile` (lib.rs:185-188). -/
def applySortKey (options : Options) (features : List TreeFeature) : List TreeFeature :=
  match options.sort_by_key with
  | some key => prioritize key features
  | none => features

/-- `make_tile` (lib.rs:174-303): sort the candidates, run the feature loop,
and drop the tile when zero features were retained (lib.rs:281-285). -/
def make_tile (transform : ℚ × ℚ → ℚ × ℚ) (encLen : List (ℚ × ℚ) → Nat)
    (options : Options) (features : List TreeFeature) :
    Option (List TileFeature × Bool) :=
  let r := make_tile_loop transform encLen options.limit_size_bytes
    (applySortKey options features) [] 0
  if r.1.length = 0 then none else some r

/-- The layer entries produced when the features of a list are all retained
consecutively, ids starting at `base` (for stating properties of the
`make_tile` loop). -/
def tileEntriesFrom (transform : ℚ × ℚ → ℚ × ℚ) (base : Nat) :
    List TreeFeature → List TileFeature
  | [] => []
  | f :: rest =>
    ⟨base, scaledGeom transform f.geometry, f.properties⟩ ::
      tileEntriesFrom transform (base + 1) rest

/-- The layer entries for a retained feature list, ids from 0. -/
def tileEntries (transform : ℚ × ℚ → ℚ × ℚ) (fs : List TreeFeature) :
    List TileFeature :=
  tileEntriesFrom transform 0 fs

/-- The largest finite `f64` value, `f64::MAX = (2 - 2^-52) * 2^1023`, used as
the empty-bbox sentinel (math.rs:30-37). -/
def f64MaxQ : ℚ := 2 ^ 1024 - 2 ^ 971

/-- `BBox` (math.rs:21-27): geographic bounds in the original WGS84 system. -/
structure BBoxQ where
  min_lon : ℚ
  min_lat : ℚ
  max_lon : ℚ
  max_lat : ℚ

/-- `BBox::empty` (math.rs:30-37): an inverted box, mins at `f64::MAX` and
maxes at `f64::MIN = -f64::MAX`. -/
def BBoxQ.empty : BBoxQ := ⟨f64MaxQ, f64MaxQ, -f64MaxQ, -f64MaxQ⟩

/-- A raw geojson record as read from the input: optional geometry in
original (pre-reprojection) coordinates, optional properties. -/
structure GeoFeature where
  geometry : Option Geom
  properties : Option JsonObject

/-- Accumulate one point into the bbox (math.rs:43-46). -/
def BBoxQ.addPt (b : BBoxQ) (pt : ℚ × ℚ) : BBoxQ :=
  ⟨min b.min_lon pt.1, min b.min_lat pt.2, max b.max_lon pt.1, max b.max_lat pt.2⟩

/-- `BBox::add` (math.rs:39-50): only a line-string geometry contributes; any
other geometry kind, or a missing geometry, leaves the box unchanged. -/
def BBoxQ.add (b : BBoxQ) (f : GeoFeature) : BBoxQ :=
  match f.geometry with
  | some (.lineString pts) => pts.foldl BBoxQ.addPt b
  | _ => b

/-- All line-string vertices of the input, in order (for stating the bbox
property). -/
def lineStringVerts (fs : List GeoFeature) : List (ℚ × ℚ) :=
  fs.flatMap fun f =>
    match f.geometry with
    | some (.lineString pts) => pts
    | _ => []

/-- The bbox accumulated over a whole input (math.rs loop at lib.rs:156-158),
copied into the archive header at lib.rs:43-46. -/
def loadBBox (fs : List GeoFeature) : BBoxQ :=
  fs.foldl BBoxQ.add BBoxQ.empty

/-- Rust `as u32` on an integral float value: saturating cast to
`[0, 2^32 - 1]`. -/
def u32Sat (i : Int) : Nat := (min i ((2 : Int) ^ 32 - 1)).toNat

/-- The discretization step of `lon_lat_to_tile` (math.rs:73-78):
`(normalized * 2^zoom).floor() as u32`.  The transcendental normalization of
longitude/latitude (math.rs:64-71) is kept abstract: this function receives
the normalized coordinate as an exact value.  No clipping to `[0, 2^zoom)`
is performed. -/
def tileIndex (norm : ℚ) (zoom : Nat) : Nat :=
  u32Sat ⌊norm * (2 ^ zoom : ℚ)⌋

/-- `BBox::to_tiles` (math.rs:52-57) given the two normalized corner
projections `c1` (of `(min_lon, min_lat)`) and `c2` (of `(max_lon, max_lat)`):
returns `(x1, y1.min(y2), x2, y2.max(y1))`. -/
def to_tiles (c1 c2 : ℚ × ℚ) (zoom : Nat) : Nat × Nat × Nat × Nat :=
  let x1 := tileIndex c1.1 zoom
  let y1 := tileIndex c1.2 zoom
  let x2 := tileIndex c2.1 zoom
  let y2 := tileIndex c2.2 zoom
  (x1, min y1 y2, x2, max y2 y1)

/-- A tile coordinate triple. -/
structure TileCoord where
  x : Nat
  y : Nat
  z : Nat
deriving DecidableEq

/-- Modelled from the spec: the external `mvt::TileId::new` constructor.
Spec section 3: "TileCoordinate: triple (x, y, z). Invariant: 0 ≤ x,y < 2^z.
Constructing an out-of-range triple is an error." -/
def tileIdNew (x y z : Nat) : Option TileCoord :=
  if x < 2 ^ z ∧ y < 2 ^ z then some ⟨x, y, z⟩ else none

/-- The nested x/y loops of lib.rs:69-73: all pairs with `x1 ≤ x ≤ x2` and
`y1 ≤ y ≤ y2`, x-major. -/
def planZoom (x1 y1 x2 y2 : Nat) : List (Nat × Nat) :=
  (List.range' x1 (x2 + 1 - x1)).flatMap fun x =>
    (List.range' y1 (y2 + 1 - y1)).map fun y => (x, y)

/-- The (x, y) pairs planned for one zoom level (lib.rs:68-73). -/
def planZoomTiles (c1 c2 : ℚ × ℚ) (z : Nat) : List (Nat × Nat) :=
  let r := to_tiles c1 c2 z
  planZoom r.1 r.2.1 r.2.2.1 r.2.2.2

/-- Construct each planned triple through `TileId::new`, aborting the whole
plan on the first failure (the `?` at lib.rs:71). -/
def planIdsLoop : List (Nat × Nat × Nat) → Option (List TileCoord)
  | [] => some []
  | t :: rest =>
    match tileIdNew t.1 t.2.1 t.2.2 with
    | none => none
    | some tc => (planIdsLoop rest).map fun ts => tc :: ts

/-- `tiles_to_calculate` (lib.rs:64-74): the Cartesian products for every
requested zoom, each triple constructed through `TileId::new` whose failure
(`?`) aborts the run. -/
def tilesToCalculate (c1 c2 : ℚ × ℚ) (zoom_levels : List Nat) :
    Option (List TileCoord) :=
  planIdsLoop (zoom_levels.flatMap fun z =>
    (planZoomTiles c1 c2 z).map fun p => (p.1, p.2, z))

/-- The abort causes of the loader: a record whose geometry is `None` hits
`.unwrap()` at lib.rs:116, and a geometry with no bounding rectangle hits
`.unwrap()` at lib.rs:129 when `CachedEnvelope::new` computes the envelope. -/
inductive LoadError where
  | missingGeometry : LoadError
  | emptyEnvelope : LoadError
deriving DecidableEq

/-- Apply the coordinate reprojection to every vertex (lib.rs:117). -/
def mapGeomCoords (f : ℚ × ℚ → ℚ × ℚ) : Geom → Geom
  | .lineString pts => .lineString (pts.map f)
  | .otherKind => .otherKind

/-- `From<geojson::Feature> for TreeFeature` (lib.rs:112-123): the geometry
must exist (otherwise the `.unwrap()` on `None` aborts, modelled as the
`missingGeometry` error), and every coordinate is reprojected.  The
`reproject` parameter stands for the transcendental
`wgs84_to_web_mercator` (math.rs:8-19). -/
def treeFeatureOf (reproject : ℚ × ℚ → ℚ × ℚ) (f : GeoFeature) :
    Except LoadError TreeFeature :=
  match f.geometry with
  | none => .error .missingGeometry
  | some g => .ok ⟨mapGeomCoords reproject g, f.properties⟩

/-- `bounding_rect` of a geometry (used by the `RTreeObject` impl,
lib.rs:128-131): `None` exactly when the geometry is empty.  The rectangle of
a non-line-string is irrelevant downstream (such geometries are never
encoded) and is modelled as degenerate. -/
def boundingRect : Geom → Option (ℚ × ℚ × ℚ × ℚ)
  | .lineString [] => none
  | .lineString (p :: ps) =>
    some (ps.foldl (fun r q =>
      (min r.1 q.1, min r.2.1 q.2, max r.2.2.1 q.1, max r.2.2.2 q.2))
      (p.1, p.2, p.1, p.2))
  | .otherKind => some (0, 0, 0, 0)

/-- Register every property key on first occurrence (lib.rs:160-165). -/
def addFields (fields : List String) (f : GeoFeature) : List String :=
  match f.properties with
  | none => fields
  | some props =>
    props.foldl (fun acc kv => if kv.1 ∈ acc then acc else acc ++ [kv.1]) fields

/-- The loop body of `load_features` (lib.rs:156-168), fail-fast: per record,
accumulate the bbox and the field keys, then convert the record (geometry
must exist) and compute its cached envelope (must be nonempty). -/
def loadLoop (reproject : ℚ × ℚ → ℚ × ℚ) :
    List GeoFeature → List TreeFeature → BBoxQ → List String →
    Except LoadError (List TreeFeature × BBoxQ × List String)
  | [], acc, bbox, fields => .ok (acc, bbox, fields)
  | f :: rest, acc, bbox, fields =>
    let bbox2 := bbox.add f
    let fields2 := addFields fields f
    match treeFeatureOf reproject f with
    | .error e => .error e
    | .ok tf =>
      match boundingRect tf.geometry with
      | none => .error .emptyEnvelope
      | some _ => loadLoop reproject rest (acc ++ [tf]) bbox2 fields2

/-- `load_features` (lib.rs:143-172): returns the features to bulk-load into
the r-tree, the feature count, the bbox and the discovered field keys; any
record failure aborts the whole load with no partial output. -/
def load_features (reproject : ℚ × ℚ → ℚ × ℚ) (input : List GeoFeature) :
    Except LoadError (List TreeFeature × Nat × BBoxQ × List String) :=
  match loadLoop reproject input [] BBoxQ.empty [] with
  | .error e => .error e
  | .ok (acc, bbox, fields) => .ok (acc, acc.length, bbox, fields)

/-- Modelled from the spec: the external `pmtiles2::util::tile_id`.  Spec
section 4.6: each tile is "addressable by a single integer derived
deterministically from (z,x,y); no two tiles may share that derived
identifier".  Modelled as the pyramid offset plus the row-major index, which
is injective on coordinates satisfying the TileCoordinate invariant. -/
def pmtilesId (t : TileCoord) : Nat :=
  (4 ^ t.z - 1) / 3 + t.y * 2 ^ t.z + t.x

/-- Insert one tile payload under its identifier (`PMTiles::add_tile`,
lib.rs:99-102), overwriting any previous payload with the same identifier. -/
def insertTile (archive : Nat → Option α) (key : Nat) (v : α) : Nat → Option α :=
  fun k => if k = key then some v else archive k

/-- The assembly loop of lib.rs:98-103 over already-keyed payloads. -/
def addAllTiles : List (Nat × α) → (Nat → Option α) → (Nat → Option α)
  | [], archive => archive
  | (k, v) :: rest, archive => addAllTiles rest (insertTile archive k v)

/-- Assemble the final archive from the collected per-tile results
(lib.rs:97-103), keyed by the derived tile identifier. -/
def assembleArchive (tiles : List (TileCoord × α)) : Nat → Option α :=
  addAllTiles (tiles.map fun e => (pmtilesId e.1, e.2)) (fun _ => none)

/-- The parallel fan-out of lib.rs:77-95: one `make_tile` per planned tile
(its candidate list coming from the r-tree range query, kept abstract as
`candidates`), keeping the tiles that were materialized.  `transform` gives
each tile its affine tile-local transform (lib.rs:190-191). -/
def buildTiles (transform : TileCoord → ℚ × ℚ → ℚ × ℚ)
    (encLen : List (ℚ × ℚ) → Nat) (options : Options)
    (candidates : TileCoord → List TreeFeature) (planned : List TileCoord) :
    List (TileCoord × (List TileFeature × Bool)) :=
  planned.filterMap fun tc =>
    (make_tile (transform tc) encLen options (candidates tc)).map fun r => (tc, r)

/-! Concrete features used in the executable parts of the claims. -/

/-- A line-string feature with a numeric priority property `p`. -/
def featWithNum (q : ℚ) : TreeFeature :=
  ⟨.lineString [(0, 0)], some [("p", .num q)]⟩

/-- A line-string feature with no properties. -/
def featNoProps : TreeFeature := ⟨.lineString [(0, 0)], none⟩

/-- A line-string feature whose priority property is a non-numeric value. -/
def featWithStr : TreeFeature := ⟨.lineString [(0, 0)], some [("p", .str "x")]⟩

/-- Whether a raw record carries a line-string geometry (the only kind that
contributes to the bbox, math.rs:41). -/
def isLineStringFeature (f : GeoFeature) : Bool :=
  match f.geometry with
  | some (.lineString _) => true
  | _ => false

/-- A small concrete input: one line-string record and one record of another
geometry kind. -/
def sampleInput : List GeoFeature :=
  [⟨some (.lineString [(1, 2), (3, 4)]), none⟩, ⟨some .otherKind, none⟩]

/-! Properties of the priority sort. -/

instance (keyOf : α → Nat) : IsTotal (Nat × α) (lexRel keyOf) := by
  constructor
  intro a b
  unfold lexRel
  rcases Nat.lt_trichotomy (keyOf a.2) (keyOf b.2) with h | h | h
  · exact Or.inl (Or.inl h)
  · rcases Nat.le_total a.1 b.1 with h2 | h2
    · exact Or.inl (Or.inr ⟨h, h2⟩)
    · exact Or.inr (Or.inr ⟨h.symm, h2⟩)
  · exact Or.inr (Or.inl h)

instance (keyOf : α → Nat) : IsTrans (Nat × α) (lexRel keyOf) := by
  constructor
  intro a b c hab hbc
  unfold lexRel at *
  rcases hab with h1 | ⟨h1, h1i⟩ <;> rcases hbc with h2 | ⟨h2, h2i⟩
  · exact Or.inl (h1.trans h2)
  · exact Or.inl (h2 ▸ h1)
  · exact Or.inl (h1 ▸ h2)
  · exact Or.inr ⟨h1.trans h2, h1i.trans h2i⟩

theorem sortByKeyIdx_sorted (keyOf : α → Nat) (l : List (Nat × α)) :
    (sortByKeyIdx keyOf l).Pairwise (lexRel keyOf) :=
  List.sorted_insertionSort (lexRel keyOf) l

theorem sortByKeyIdx_perm (keyOf : α → Nat) (l : List (Nat × α)) :
    List.Perm (sortByKeyIdx keyOf l) l :=
  List.perm_insertionSort (lexRel keyOf) l

theorem sortByKeyIdx_enum_fst_nodup (keyOf : α → Nat) (l : List α) :
    ((sortByKeyIdx keyOf l.enum).map Prod.fst).Nodup := by
  have hp : List.Perm ((sortByKeyIdx keyOf l.enum).map Prod.fst) (l.enum.map Prod.fst) :=
    (sortByKeyIdx_perm keyOf l.enum).map Prod.fst
  rw [hp.nodup_iff, List.enum_map_fst]
  exact List.nodup_range l.length

/-- The sorted, index-tagged candidate list is strictly sorted by
(key, original index): the stability fact behind the tie-break claim. -/
theorem sortByKeyIdx_enum_pairwise (keyOf : α → Nat) (l : List α) :
    (sortByKeyIdx keyOf l.enum).Pairwise
      (fun a b => keyOf a.2 < keyOf b.2 ∨ (keyOf a.2 = keyOf b.2 ∧ a.1 < b.1)) := by
  have h1 := sortByKeyIdx_sorted keyOf l.enum
  have h2 : (sortByKeyIdx keyOf l.enum).Pairwise (fun a b : Nat × α => a.1 ≠ b.1) :=
    List.pairwise_map.mp (sortByKeyIdx_enum_fst_nodup keyOf l)
  refine (List.pairwise_and_iff.mpr ⟨h1, h2⟩).imp ?_
  rintro a b ⟨hl, hne⟩
  rcases hl with h | ⟨h, hle⟩
  · exact Or.inl h
  · exact Or.inr ⟨h, lt_of_le_of_ne hle hne⟩

theorem prioritize_eq_reverse_sorted (key : String) (fs : List TreeFeature) :
    prioritize key fs
      = ((sortByKeyIdx (getSortKeyD key) fs.enum).reverse).map Prod.snd := by
  unfold prioritize rustSortByKey
  rw [← List.map_reverse]

/-- C2: with a priority key configured, the candidate list is stable-sorted
ascending by the key value (missing/non-numeric read as 0) and then reversed:
the result is a permutation of the candidates, in descending key order (also
after the inclusion filter that selects the retained features), equal keys
appearing in the reverse of their pre-sort index order; concretely, values in
input order [5, 10] come out as [10, 5]. -/
theorem C2_priority_sort_order (key : String) (fs : List TreeFeature)
    (transform : ℚ × ℚ → ℚ × ℚ) :
    List.Perm (prioritize key fs) fs ∧
    (prioritize key fs).Pairwise
      (fun a b => getSortKeyD key b ≤ getSortKeyD key a) ∧
    ((prioritize key fs).filter (includedB transform)).Pairwise
      (fun a b => getSortKeyD key b ≤ getSortKeyD key a) ∧
    ((sortByKeyIdx (getSortKeyD key) fs.enum).reverse).Pairwise
      (fun a b => getSortKeyD key b.2 < getSortKeyD key a.2 ∨
        (getSortKeyD key a.2 = getSortKeyD key b.2 ∧ b.1 < a.1)) ∧
    prioritize "p" [featWithNum 5, featWithNum 10]
      = [featWithNum 10, featWithNum 5] := by
  have hrev : ((sortByKeyIdx (getSortKeyD key) fs.enum).reverse).Pairwise
      (fun a b => getSortKeyD key b.2 < getSortKeyD key a.2 ∨
        (getSortKeyD key a.2 = getSortKeyD key b.2 ∧ b.1 < a.1)) := by
    rw [List.pairwise_reverse]
    exact (sortByKeyIdx_enum_pairwise (getSortKeyD key) fs).imp (by
      rintro a b (h | ⟨h, hi⟩)
      · exact Or.inl h
      · exact Or.inr ⟨h.symm, hi⟩)
  have hdesc : (prioritize key fs).Pairwise
      (fun a b => getSortKeyD key b ≤ getSortKeyD key a) := by
    rw [prioritize_eq_reverse_sorted]
    refine List.pairwise_map.mpr (hrev.imp ?_)
    rintro a b (h | ⟨h, _⟩)
    · exact le_of_lt h
    · exact le_of_eq h.symm
  refine ⟨?_, hdesc, hdesc.filter _, hrev, by with_unfolding_all rfl⟩
  unfold prioritize rustSortByKey
  refine ((List.reverse_perm _).trans ?_)
  have h3 := (sortByKeyIdx_perm (getSortKeyD key) fs.enum).map Prod.snd
  rw [List.enum_map_snd fs] at h3
  exact h3

/-! Saturation behavior of the numeric sort key. -/

theorem rustRound_nonpos {q : ℚ} (h : q < 0) : rustRound q ≤ 0 := by
  unfold rustRound
  rw [if_neg (not_le.mpr h)]
  have h2 : (0 : Int) ≤ ⌊-q + 1 / 2⌋ := by
    apply Int.floor_nonneg.mpr
    have : (0 : ℚ) < -q := by linarith
    linarith
  omega

theorem usizeSat_of_nonpos {i : Int} (h : i ≤ 0) : usizeSat i = 0 := by
  unfold usizeSat
  have : min i ((2 : Int) ^ 64 - 1) ≤ 0 := le_trans (min_le_left _ _) h
  omega

theorem getSortKeyD_featWithNum (q : ℚ) :
    getSortKeyD "p" (featWithNum q) = usizeSat (rustRound q) := by
  with_unfolding_all rfl

/-- C10: the sort key is the attribute value rounded to the nearest integer
and cast to `usize` with saturation: every negative value yields key 0 (tying
with missing, non-numeric and zero-valued keys), and values rounding to the
same integer (10 and 10.4) get equal keys and hence fall under the reversal
tie-break instead of being ordered by exact value. -/
theorem C10_sort_key_saturation (q : ℚ) :
    (q < 0 → getSortKeyD "p" (featWithNum q) = 0) ∧
    getSortKeyD "p" featNoProps = 0 ∧
    getSortKeyD "p" featWithStr = 0 ∧
    getSortKeyD "p" (featWithNum 0) = 0 ∧
    getSortKeyD "p" (featWithNum 10) = getSortKeyD "p" (featWithNum (52 / 5)) ∧
    prioritize "p" [featWithNum 10, featWithNum (52 / 5)]
      = [featWithNum (52 / 5), featWithNum 10] := by
  refine ⟨?_, by with_unfolding_all rfl, by with_unfolding_all rfl,
    by with_unfolding_all rfl, by with_unfolding_all rfl,
    by with_unfolding_all rfl⟩
  intro hq
  rw [getSortKeyD_featWithNum]
  exact usizeSat_of_nonpos (rustRound_nonpos hq)

/-- Witness for C10 at the concrete negative value -3. -/
theorem C10_sort_key_saturation_witness :
    ((-3 : ℚ) < 0) ∧ getSortKeyD "p" (featWithNum (-3)) = 0 :=
  ⟨by norm_num, (C10_sort_key_saturation (-3)).1 (by norm_num)⟩

/-! Properties of the `make_tile` feature loop. -/

theorem tileEntriesFrom_length (transform : ℚ × ℚ → ℚ × ℚ) :
    ∀ (fs : List TreeFeature) (base : Nat),
      (tileEntriesFrom transform base fs).length = fs.length := by
  intro fs
  induction fs with
  | nil => intro base; rfl
  | cons f rest ih =>
    intro base
    simp [tileEntriesFrom, ih]

/-- With no byte budget, the loop retains exactly the features passing the
vertex-inclusion test, in order, each with all of its scaled vertices, and
never truncates. -/
theorem make_tile_loop_no_limit (transform : ℚ × ℚ → ℚ × ℚ)
    (encLen : List (ℚ × ℚ) → Nat) :
    ∀ (fs : List TreeFeature) (layer : List TileFeature) (bytes : Nat),
      make_tile_loop transform encLen none fs layer bytes
        = (layer ++ tileEntriesFrom transform layer.length
            (fs.filter (includedB transform)), false) := by
  intro fs
  induction fs with
  | nil => intro layer bytes; simp [make_tile_loop, tileEntriesFrom]
  | cons f rest ih =>
    intro layer bytes
    by_cases hinc : includedB transform f
    · rw [make_tile_loop, if_pos hinc]
      show make_tile_loop transform encLen none rest
        (layer ++ [⟨layer.length, scaledGeom transform f.geometry, f.properties⟩]) _ = _
      rw [ih]
      simp [List.filter_cons_of_pos hinc, tileEntriesFrom]
    · rw [make_tile_loop, if_neg hinc, ih,
        List.filter_cons_of_neg (by simpa using hinc)]

/-- With a budget `B`, if every candidate passes the inclusion test, the
first `N` encoded sizes fit within `B`, and the `(N+1)`-th pushes the running
total over `B`, the loop stops at the `(N+1)`-th feature: it keeps exactly
the first `N` features (dropping the triggering one) and reports
truncation. -/
theorem make_tile_loop_truncates (transform : ℚ × ℚ → ℚ × ℚ)
    (encLen : List (ℚ × ℚ) → Nat) (B : Nat) :
    ∀ (N : Nat) (fs : List TreeFeature) (layer : List TileFeature) (bytes : Nat),
      (∀ f ∈ fs, includedB transform f = true) →
      N < fs.length →
      bytes + ((fs.take N).map
        (fun f => encLen (scaledGeom transform f.geometry))).sum ≤ B →
      B < bytes + ((fs.take (N + 1)).map
        (fun f => encLen (scaledGeom transform f.geometry))).sum →
      make_tile_loop transform encLen (some B) fs layer bytes
        = (layer ++ tileEntriesFrom transform layer.length (fs.take N), true) := by
  intro N
  induction N with
  | zero =>
    intro fs layer bytes hinc hlen hfit hover
    cases fs with
    | nil => simp at hlen
    | cons f rest =>
      have hf : includedB transform f = true := hinc f (List.mem_cons_self f rest)
      rw [make_tile_loop, if_pos hf]
      have hov : overLimit (some B)
          (bytes + encLen (scaledGeom transform f.geometry)) = true := by
        simp only [List.take_succ_cons, List.take_zero, List.map_cons,
          List.map_nil, List.sum_cons, List.sum_nil, Nat.add_zero] at hover
        simpa [overLimit] using hover
      rw [if_pos hov]
      simp [tileEntriesFrom]
  | succ N ih =>
    intro fs layer bytes hinc hlen hfit hover
    cases fs with
    | nil => simp at hlen
    | cons f rest =>
      have hf : includedB transform f = true := hinc f (List.mem_cons_self f rest)
      rw [make_tile_loop, if_pos hf]
      have hfit2 : bytes + encLen (scaledGeom transform f.geometry)
          + ((rest.take N).map
            (fun f => encLen (scaledGeom transform f.geometry))).sum ≤ B := by
        simp only [List.take_succ_cons, List.map_cons, List.sum_cons] at hfit
        omega
      have hov : overLimit (some B)
          (bytes + encLen (scaledGeom transform f.geometry)) = false := by
        have hble : bytes + encLen (scaledGeom transform f.geometry) ≤ B := by omega
        simp [overLimit, Nat.not_lt.mpr hble]
      rw [if_neg (by simp [hov])]
      rw [ih rest _ _ (fun g hg => hinc g (List.mem_cons_of_mem f hg))
        (by simp only [List.length_cons] at hlen; omega) hfit2
        (by simp only [List.take_succ_cons, List.map_cons, List.sum_cons] at hover; omega)]
      simp [tileEntriesFrom]

/-- C1 (amended): with a budget `B` configured and no priority key, when the
first `N ≥ 1` candidates fit within `B` and the `(N+1)`-th pushes the running
encoded-byte counter over `B`, the tile retains exactly the first `N`
features (the triggering feature is dropped, not kept), stops processing
further candidates, and is marked truncated. -/
theorem C1_budget_truncation (transform : ℚ × ℚ → ℚ × ℚ)
    (encLen : List (ℚ × ℚ) → Nat) (options : Options) (B N : Nat)
    (features : List TreeFeature)
    (hkey : options.sort_by_key = none)
    (hlim : options.limit_size_bytes = some B)
    (hinc : ∀ f ∈ features, includedB transform f = true)
    (hN : N < features.length) (hNpos : 0 < N)
    (hfit : ((features.take N).map
      (fun f => encLen (scaledGeom transform f.geometry))).sum ≤ B)
    (hover : B < ((features.take (N + 1)).map
      (fun f => encLen (scaledGeom transform f.geometry))).sum) :
    make_tile transform encLen options features
      = some (tileEntries transform (features.take N), true) ∧
    (tileEntries transform (features.take N)).length = N := by
  have hlenN : (tileEntries transform (features.take N)).length = N := by
    rw [tileEntries, tileEntriesFrom_length, List.length_take]
    omega
  have hloop := make_tile_loop_truncates transform encLen B N features [] 0
    hinc hN (by simpa using hfit) (by simpa using hover)
  refine ⟨?_, hlenN⟩
  unfold make_tile
  rw [applySortKey, hkey, hlim, hloop]
  simp only [List.nil_append, List.length_nil]
  rw [if_neg (by rw [show tileEntriesFrom transform 0 (features.take N)
    = tileEntries transform (features.take N) from rfl, hlenN]; omega)]
  rfl

/-- Counterexample to C1 as stated: two identical features of encoded size 10
under budget 15 (the first fits, the second pushes the total to 20 > 15).
The claim predicts both are retained (N + 1 = 2); the code drops the
triggering feature and retains only 1, because the budget check at
lib.rs:239-244 breaks out of the loop before `layer.into_feature` runs. -/
theorem C1_counterexample :
    make_tile (fun p => p) (fun _ => 10) ⟨"layer1", none, [0], some 15⟩
      [featNoProps, featNoProps]
      = some ([⟨0, [(0, 0)], none⟩], true) ∧
    ¬ ((make_tile (fun p => p) (fun _ => 10) ⟨"layer1", none, [0], some 15⟩
        [featNoProps, featNoProps]).map (fun r => r.1.length) = some 2) :=
  ⟨by with_unfolding_all rfl, by with_unfolding_all decide⟩

/-- Witness for C1 (amended) with three size-10 features and budget 25:
N = 2 fit, the third triggers truncation and is dropped. -/
theorem C1_budget_truncation_witness :
    make_tile (fun p => p) (fun _ => 10) ⟨"layer1", none, [0], some 25⟩
      [featNoProps, featNoProps, featNoProps]
      = some (tileEntries (fun p => p)
          ([featNoProps, featNoProps, featNoProps].take 2), true) ∧
    (tileEntries (fun p => p)
      ([featNoProps, featNoProps, featNoProps].take 2)).length = 2 :=
  C1_budget_truncation (fun p => p) (fun _ => 10)
    ⟨"layer1", none, [0], some 25⟩ 25 2
    [featNoProps, featNoProps, featNoProps] rfl rfl
    (by intro f hf; fin_cases hf <;> with_unfolding_all rfl)
    (by decide) (by decide) (by decide) (by decide)

/-- C3 (amended): when no byte budget is configured, a tile's retained
contents are exactly the candidates passing the vertex-inclusion test —
line-strings with at least one transformed vertex in `[0,1]×[0,1]` — in
candidate order, each keeping all of its (scaled) original vertices with no
clipping, and the tile is dropped when nothing passes.  In particular a
line-string whose segment crosses the tile with no vertex inside is excluded,
as the second, concrete conjunct shows.  (With a budget configured the
"retained if a vertex is inside" direction fails; see the counterexample.) -/
theorem C3_vertex_inclusion (transform : ℚ × ℚ → ℚ × ℚ)
    (encLen : List (ℚ × ℚ) → Nat) (options : Options) (fs : List TreeFeature)
    (hlim : options.limit_size_bytes = none) :
    (make_tile transform encLen options fs
      = if (tileEntries transform
            ((applySortKey options fs).filter (includedB transform))).length = 0
        then none
        else some (tileEntries transform
          ((applySortKey options fs).filter (includedB transform)), false)) ∧
    make_tile (fun p => p) (fun _ => 1) ⟨"layer1", none, [0], none⟩
      [⟨.lineString [(-1, 1 / 2), (2, 1 / 2)], none⟩] = none := by
  refine ⟨?_, by with_unfolding_all rfl⟩
  unfold make_tile
  rw [hlim, make_tile_loop_no_limit]
  simp only [List.nil_append, List.length_nil]
  rfl

/-- Witness for C3 (amended): one feature with a vertex inside and one
non-line-string candidate, no budget. -/
theorem C3_vertex_inclusion_witness :
    (make_tile (fun p => p) (fun _ => 1) ⟨"layer1", none, [0], none⟩
      [featNoProps, ⟨.otherKind, none⟩]
      = if (tileEntries (fun p => p)
            (([featNoProps, ⟨.otherKind, none⟩].filter
              (includedB (fun p => p))))).length = 0
        then none
        else some (tileEntries (fun p => p)
          ([featNoProps, ⟨.otherKind, none⟩].filter
            (includedB (fun p => p))), false)) ∧
    make_tile (fun p => p) (fun _ => 1) ⟨"layer1", none, [0], none⟩
      [⟨.lineString [(-1, 1 / 2), (2, 1 / 2)], none⟩] = none :=
  C3_vertex_inclusion (fun p => p) (fun _ => 1)
    ⟨"layer1", none, [0], none⟩ [featNoProps, ⟨.otherKind, none⟩] rfl

/-- Counterexample to C3 as stated: with a byte budget configured (5) and a
single line-string whose vertex (0,0) lies inside the tile-local unit square,
the encoded size 10 exceeds the budget, the feature is dropped and the tile
is not materialized — so "retained iff some vertex lies within the unit
square" fails in the "if" direction. -/
theorem C3_counterexample :
    make_tile (fun p => p) (fun _ => 10) ⟨"layer1", none, [0], some 5⟩
      [featNoProps] = none ∧
    includedB (fun p => p) featNoProps = true :=
  ⟨by with_unfolding_all rfl, by with_unfolding_all rfl⟩

/-! The archive never contains an empty tile. -/

theorem make_tile_some_nonempty (transform : ℚ × ℚ → ℚ × ℚ)
    (encLen : List (ℚ × ℚ) → Nat) (options : Options)
    (fs : List TreeFeature) (r : List TileFeature × Bool)
    (h : make_tile transform encLen options fs = some r) : r.1 ≠ [] := by
  simp only [make_tile] at h
  split at h
  · exact absurd h (by simp)
  · rename_i hne
    cases h
    intro hnil
    exact hne (by rw [hnil]; rfl)

theorem addAllTiles_lookup :
    ∀ (l : List (Nat × α)) (m : Nat → Option α) (k : Nat) (v : α),
      addAllTiles l m k = some v → (k, v) ∈ l ∨ m k = some v := by
  intro l
  induction l with
  | nil => intro m k v h; exact Or.inr h
  | cons e rest ih =>
    intro m k v h
    obtain ⟨ek, ev⟩ := e
    rcases ih _ _ _ h with hm | hm
    · exact Or.inl (List.mem_cons_of_mem _ hm)
    · unfold insertTile at hm
      by_cases hk : k = ek
      · rw [if_pos hk] at hm
        cases hm
        subst hk
        exact Or.inl (List.mem_cons_self _ _)
      · rw [if_neg hk] at hm
        exact Or.inr hm

/-- C9: a tile build that retains zero features returns nothing, and every
tile payload reachable in the assembled archive has a nonempty feature
list. -/
theorem C9_no_empty_tiles :
    (∀ (transform : ℚ × ℚ → ℚ × ℚ) (encLen : List (ℚ × ℚ) → Nat)
        (options : Options) (fs : List TreeFeature) (r : List TileFeature × Bool),
      make_tile transform encLen options fs = some r → r.1 ≠ []) ∧
    (∀ (transform : TileCoord → ℚ × ℚ → ℚ × ℚ) (encLen : List (ℚ × ℚ) → Nat)
        (options : Options) (candidates : TileCoord → List TreeFeature)
        (planned : List TileCoord) (k : Nat) (t : List TileFeature × Bool),
      assembleArchive (buildTiles transform encLen options candidates planned) k
        = some t → t.1 ≠ []) := by
  refine ⟨make_tile_some_nonempty, ?_⟩
  intro transform encLen options candidates planned k t h
  unfold assembleArchive at h
  rcases addAllTiles_lookup _ _ _ _ h with hm | hm
  · rcases List.mem_map.mp hm with ⟨e, he, hkey⟩
    rcases List.mem_filterMap.mp he with ⟨tc, _, hmk⟩
    rcases Option.map_eq_some'.mp hmk with ⟨r, hr, hert⟩
    have ht : t = r := by
      have : e.2 = r := by rw [← hert]
      rw [← this]
      exact (congrArg Prod.snd hkey).symm ▸ rfl
    exact ht ▸ make_tile_some_nonempty _ _ _ _ _ hr
  · exact absurd hm (by simp)

/-- Witness for C9: a concrete tile build retaining one feature. -/
theorem C9_no_empty_tiles_witness :
    make_tile (fun p => p) (fun _ => 1) ⟨"layer1", none, [0], none⟩
      [featNoProps] = some ([⟨0, [(0, 0)], none⟩], false) ∧
    ([(⟨0, [(0, 0)], none⟩ : TileFeature)], false).1 ≠ [] :=
  ⟨by with_unfolding_all rfl,
    C9_no_empty_tiles.1 (fun p => p) (fun _ => 1) ⟨"layer1", none, [0], none⟩
      [featNoProps] ([⟨0, [(0, 0)], none⟩], false) (by with_unfolding_all rfl)⟩

/-! Properties of the tile grid planner. -/

theorem mem_planZoom (x1 y1 x2 y2 x y : Nat) :
    (x, y) ∈ planZoom x1 y1 x2 y2 ↔
      (x1 ≤ x ∧ x ≤ x2 ∧ y1 ≤ y ∧ y ≤ y2) := by
  unfold planZoom
  simp only [List.mem_flatMap, List.mem_map, List.mem_range'_1]
  constructor
  · rintro ⟨a, ⟨ha1, ha2⟩, b, ⟨hb1, hb2⟩, hab⟩
    cases hab
    omega
  · rintro ⟨h1, h2, h3, h4⟩
    exact ⟨x, by omega, y, by omega, rfl⟩

theorem tileIdNew_some {x y z : Nat} {tc : TileCoord}
    (h : tileIdNew x y z = some tc) :
    tc = ⟨x, y, z⟩ ∧ x < 2 ^ z ∧ y < 2 ^ z := by
  unfold tileIdNew at h
  split at h
  · rename_i hb
    cases h
    exact ⟨rfl, hb⟩
  · cases h

theorem planIdsLoop_all (l : List (Nat × Nat × Nat))
    (h : ∀ t ∈ l, t.1 < 2 ^ t.2.2 ∧ t.2.1 < 2 ^ t.2.2) :
    planIdsLoop l = some (l.map fun t => ⟨t.1, t.2.1, t.2.2⟩) := by
  induction l with
  | nil => rfl
  | cons t rest ih =>
    have ht := h t (List.mem_cons_self t rest)
    unfold planIdsLoop
    rw [show tileIdNew t.1 t.2.1 t.2.2 = some ⟨t.1, t.2.1, t.2.2⟩ from
      by unfold tileIdNew; rw [if_pos ht]]
    rw [ih fun a ha => h a (List.mem_cons_of_mem t ha)]
    rfl

theorem planIdsLoop_mem (l : List (Nat × Nat × Nat)) (ts : List TileCoord)
    (h : planIdsLoop l = some ts) :
    ∀ tc ∈ ts, ∃ t ∈ l, tileIdNew t.1 t.2.1 t.2.2 = some tc := by
  induction l generalizing ts with
  | nil =>
    cases h
    intro tc htc
    exact absurd htc (by simp)
  | cons t rest ih =>
    unfold planIdsLoop at h
    cases hnew : tileIdNew t.1 t.2.1 t.2.2 with
    | none => rw [hnew] at h; cases h
    | some tc0 =>
      rw [hnew] at h
      cases hrest : planIdsLoop rest with
      | none => rw [hrest] at h; cases h
      | some ts0 =>
        rw [hrest] at h
        cases h
        intro tc htc
        rcases List.mem_cons.mp htc with rfl | hmem
        · exact ⟨t, List.mem_cons_self t rest, hnew⟩
        · rcases ih ts0 hrest tc hmem with ⟨a, ha, hia⟩
          exact ⟨a, List.mem_cons_of_mem t ha, hia⟩

/-- C4: per requested zoom, the planner derives the corner tiles from the two
projected bbox corners, takes the y-range as `[min(y1,y2), max(y1,y2)]`
rather than assuming order, and plans exactly the Cartesian product
`[x1,x2] × [min y, max y]`; when every product member satisfies the tile
invariant, the emitted list is exactly that product at that zoom. -/
theorem C4_planner_product (c1 c2 : ℚ × ℚ) (z : Nat) :
    (∀ x y : Nat, (x, y) ∈ planZoomTiles c1 c2 z ↔
      (tileIndex c1.1 z ≤ x ∧ x ≤ tileIndex c2.1 z ∧
       min (tileIndex c1.2 z) (tileIndex c2.2 z) ≤ y ∧
       y ≤ max (tileIndex c1.2 z) (tileIndex c2.2 z))) ∧
    (tileIndex c2.1 z < 2 ^ z →
     max (tileIndex c1.2 z) (tileIndex c2.2 z) < 2 ^ z →
     tilesToCalculate c1 c2 [z]
       = some ((planZoomTiles c1 c2 z).map fun p => ⟨p.1, p.2, z⟩)) := by
  have hmem : ∀ x y : Nat, (x, y) ∈ planZoomTiles c1 c2 z ↔
      (tileIndex c1.1 z ≤ x ∧ x ≤ tileIndex c2.1 z ∧
       min (tileIndex c1.2 z) (tileIndex c2.2 z) ≤ y ∧
       y ≤ max (tileIndex c1.2 z) (tileIndex c2.2 z)) := by
    intro x y
    have he : planZoomTiles c1 c2 z
        = planZoom (tileIndex c1.1 z)
            (min (tileIndex c1.2 z) (tileIndex c2.2 z)) (tileIndex c2.1 z)
            (max (tileIndex c2.2 z) (tileIndex c1.2 z)) := rfl
    rw [he, mem_planZoom]
    omega
  refine ⟨hmem, fun hx hy => ?_⟩
  have hall : ∀ t ∈ ((planZoomTiles c1 c2 z).map fun p => (p.1, p.2, z)),
      t.1 < 2 ^ t.2.2 ∧ t.2.1 < 2 ^ t.2.2 := by
    intro t ht
    rcases List.mem_map.mp ht with ⟨p, hp, rfl⟩
    have hb := (hmem p.1 p.2).mp hp
    show p.1 < 2 ^ z ∧ p.2 < 2 ^ z
    omega
  have hflat : ([z].flatMap fun zz =>
      (planZoomTiles c1 c2 zz).map fun p => (p.1, p.2, zz))
      = (planZoomTiles c1 c2 z).map fun p => (p.1, p.2, z) := by
    simp [List.flatMap]
  unfold tilesToCalculate
  rw [hflat, planIdsLoop_all _ hall, List.map_map]
  rfl

/-- Witness for C4 at zoom 1 with corners whose projected y order is
inverted (y1 = 1 from the min corner, y2 = 0 from the max corner). -/
theorem C4_planner_product_witness :
    tilesToCalculate (0, 3 / 5) (3 / 5, 1 / 10) [1]
      = some ((planZoomTiles (0, 3 / 5) (3 / 5, 1 / 10) 1).map
          fun p => ⟨p.1, p.2, 1⟩) :=
  (C4_planner_product (0, 3 / 5) (3 / 5, 1 / 10) 1).2
    (by with_unfolding_all decide) (by with_unfolding_all decide)

/-- Counterexample to C5 as stated: the computed tile index is not clipped to
`[0, 2^z)`.  At normalized coordinate 1 (longitude 180 or out-of-range input)
and zoom 0, the code computes `floor(1 * 2^0) = 1`, which violates the
claimed bound `index < 2^0`. -/
theorem C5_counterexample :
    tileIndex 1 0 = 1 ∧ ¬(tileIndex 1 0 < 2 ^ 0) :=
  ⟨by with_unfolding_all rfl, by with_unfolding_all decide⟩

/-- C5 (amended): the discretization performs no clipping to `[0, 2^z)` (see
the counterexample); an out-of-range index makes the `TileId` constructor
fail, aborting planning, so whenever planning succeeds every emitted
coordinate satisfies the invariant `x < 2^z` and `y < 2^z`. -/
theorem C5_emitted_in_range (c1 c2 : ℚ × ℚ) (zs : List Nat)
    (ts : List TileCoord) (h : tilesToCalculate c1 c2 zs = some ts) :
    ∀ t ∈ ts, t.x < 2 ^ t.z ∧ t.y < 2 ^ t.z := by
  intro t ht
  rcases planIdsLoop_mem _ _ h t ht with ⟨a, _, ha⟩
  rcases tileIdNew_some ha with ⟨rfl, hb⟩
  exact hb

/-- Witness for C5 (amended) on a concrete successful plan. -/
theorem C5_emitted_in_range_witness :
    tilesToCalculate (0, 0) (0, 0) [0] = some [⟨0, 0, 0⟩] ∧
    ((⟨0, 0, 0⟩ : TileCoord).x < 2 ^ (⟨0, 0, 0⟩ : TileCoord).z ∧
     (⟨0, 0, 0⟩ : TileCoord).y < 2 ^ (⟨0, 0, 0⟩ : TileCoord).z) := by
  have h : tilesToCalculate (0, 0) (0, 0) [0] = some [⟨0, 0, 0⟩] := by
    with_unfolding_all rfl
  exact ⟨h, C5_emitted_in_range (0, 0) (0, 0) [0] [⟨0, 0, 0⟩] h ⟨0, 0, 0⟩
    (by simp)⟩

/-! Fail-fast behavior of the feature loader. -/

theorem loadLoop_missing (reproject : ℚ × ℚ → ℚ × ℚ) :
    ∀ (pre post : List GeoFeature) (f : GeoFeature) (acc : List TreeFeature)
      (bbox : BBoxQ) (fields : List String),
      f.geometry = none →
      (∀ g ∈ pre, ∃ tf, treeFeatureOf reproject g = .ok tf ∧
        (boundingRect tf.geometry).isSome = true) →
      loadLoop reproject (pre ++ f :: post) acc bbox fields
        = .error .missingGeometry := by
  intro pre
  induction pre with
  | nil =>
    intro post f acc bbox fields hgeom _
    show loadLoop reproject (f :: post) acc bbox fields = _
    unfold loadLoop
    rw [show treeFeatureOf reproject f = .error .missingGeometry from by
      unfold treeFeatureOf; rw [hgeom]]
  | cons g pre ih =>
    intro post f acc bbox fields hgeom hpre
    obtain ⟨tf, htf, henv⟩ := hpre g (List.mem_cons_self g pre)
    obtain ⟨r, hr⟩ := Option.isSome_iff_exists.mp henv
    show loadLoop reproject (g :: (pre ++ f :: post)) acc bbox fields = _
    unfold loadLoop
    rw [htf]
    dsimp only
    rw [hr]
    exact ih post f _ _ _ hgeom fun a ha => hpre a (List.mem_cons_of_mem g ha)

/-- C6: a record with no geometry makes the loader fail with the
missing-geometry abort (the `.unwrap()` panic at lib.rs:116, surfaced here as
the `missingGeometry` error): the whole load is aborted immediately, with no
partial output, whatever records come before (as long as they themselves
load) or after. -/
theorem C6_missing_geometry_aborts (reproject : ℚ × ℚ → ℚ × ℚ)
    (pre post : List GeoFeature) (f : GeoFeature)
    (hgeom : f.geometry = none)
    (hpre : ∀ g ∈ pre, ∃ tf, treeFeatureOf reproject g = .ok tf ∧
      (boundingRect tf.geometry).isSome = true) :
    load_features reproject (pre ++ f :: post) = .error .missingGeometry := by
  unfold load_features
  rw [loadLoop_missing reproject pre post f [] BBoxQ.empty [] hgeom hpre]

/-- Witness for C6: a well-formed record followed by a geometry-less one. -/
theorem C6_missing_geometry_aborts_witness :
    load_features (fun p => p)
      ([⟨some (.lineString [(1, 2)]), none⟩] ++ ⟨none, none⟩ :: [])
      = .error .missingGeometry :=
  C6_missing_geometry_aborts (fun p => p)
    [⟨some (.lineString [(1, 2)]), none⟩] [] ⟨none, none⟩ rfl
    (by
      intro g hg
      fin_cases hg
      exact ⟨⟨.lineString [(1, 2)], none⟩, by with_unfolding_all rfl,
        by with_unfolding_all rfl⟩)

/-! The header bounding box is the min/max over all line-string vertices. -/

theorem foldl_min_le_init (xs : List ℚ) : ∀ a : ℚ, xs.foldl min a ≤ a := by
  induction xs with
  | nil => intro a; simp
  | cons x xs ih => intro a; exact le_trans (ih (min a x)) (min_le_left a x)

theorem foldl_min_le_mem (xs : List ℚ) :
    ∀ (a x : ℚ), x ∈ xs → xs.foldl min a ≤ x := by
  induction xs with
  | nil => intro a x hx; cases hx
  | cons y xs ih =>
    intro a x hx
    rcases List.mem_cons.mp hx with rfl | hx
    · exact le_trans (foldl_min_le_init xs (min a x)) (min_le_right a x)
    · exact ih (min a y) x hx

theorem foldl_min_mem_or (xs : List ℚ) :
    ∀ a : ℚ, xs.foldl min a = a ∨ xs.foldl min a ∈ xs := by
  induction xs with
  | nil => intro a; exact Or.inl rfl
  | cons x xs ih =>
    intro a
    rcases ih (min a x) with h | h
    · rcases le_total a x with hax | hax
      · rw [List.foldl_cons, h, min_eq_left hax]
        exact Or.inl rfl
      · rw [List.foldl_cons, h, min_eq_right hax]
        exact Or.inr (List.mem_cons_self x xs)
    · exact Or.inr (List.mem_cons_of_mem x h)

theorem foldl_max_ge_init (xs : List ℚ) : ∀ a : ℚ, a ≤ xs.foldl max a := by
  induction xs with
  | nil => intro a; simp
  | cons x xs ih => intro a; exact le_trans (le_max_left a x) (ih (max a x))

theorem foldl_max_ge_mem (xs : List ℚ) :
    ∀ (a x : ℚ), x ∈ xs → x ≤ xs.foldl max a := by
  induction xs with
  | nil => intro a x hx; cases hx
  | cons y xs ih =>
    intro a x hx
    rcases List.mem_cons.mp hx with rfl | hx
    · exact le_trans (le_max_right a x) (foldl_max_ge_init xs (max a x))
    · exact ih (max a y) x hx

theorem foldl_max_mem_or (xs : List ℚ) :
    ∀ a : ℚ, xs.foldl max a = a ∨ xs.foldl max a ∈ xs := by
  induction xs with
  | nil => intro a; exact Or.inl rfl
  | cons x xs ih =>
    intro a
    rcases ih (max a x) with h | h
    · rcases le_total x a with hax | hax
      · rw [List.foldl_cons, h, max_eq_left hax]
        exact Or.inl rfl
      · rw [List.foldl_cons, h, max_eq_right hax]
        exact Or.inr (List.mem_cons_self x xs)
    · exact Or.inr (List.mem_cons_of_mem x h)

theorem foldl_addPt_components (pts : List (ℚ × ℚ)) :
    ∀ b : BBoxQ,
      (pts.foldl BBoxQ.addPt b).min_lon = (pts.map Prod.fst).foldl min b.min_lon ∧
      (pts.foldl BBoxQ.addPt b).min_lat = (pts.map Prod.snd).foldl min b.min_lat ∧
      (pts.foldl BBoxQ.addPt b).max_lon = (pts.map Prod.fst).foldl max b.max_lon ∧
      (pts.foldl BBoxQ.addPt b).max_lat = (pts.map Prod.snd).foldl max b.max_lat := by
  induction pts with
  | nil => intro b; exact ⟨rfl, rfl, rfl, rfl⟩
  | cons p pts ih =>
    intro b
    simpa [BBoxQ.addPt] using ih (b.addPt p)

theorem foldl_add_eq_foldl_addPt :
    ∀ (fs : List GeoFeature) (b : BBoxQ),
      fs.foldl BBoxQ.add b = (lineStringVerts fs).foldl BBoxQ.addPt b := by
  intro fs
  induction fs with
  | nil => intro b; rfl
  | cons f rest ih =>
    intro b
    rw [List.foldl_cons, ih]
    unfold lineStringVerts
    rw [List.flatMap_cons, List.foldl_append]
    congr 1
    unfold BBoxQ.add
    cases hg : f.geometry with
    | none => rfl
    | some g => cases g with
      | lineString pts => rfl
      | otherKind => rfl

theorem loadBBox_filter (fs : List GeoFeature) :
    loadBBox fs = loadBBox (fs.filter isLineStringFeature) := by
  unfold loadBBox
  rw [foldl_add_eq_foldl_addPt, foldl_add_eq_foldl_addPt]
  have hverts : lineStringVerts fs = lineStringVerts (fs.filter isLineStringFeature) := by
    induction fs with
    | nil => rfl
    | cons f rest ih =>
      unfold lineStringVerts
      rw [List.flatMap_cons]
      by_cases hf : isLineStringFeature f
      · rw [List.filter_cons_of_pos hf, List.flatMap_cons]
        unfold lineStringVerts at ih
        rw [ih]
      · rw [List.filter_cons_of_neg (by simpa using hf)]
        have hnil : (match f.geometry with
            | some (.lineString pts) => pts
            | _ => ([] : List (ℚ × ℚ))) = [] := by
          unfold isLineStringFeature at hf
          cases hg : f.geometry with
          | none => rfl
          | some g => cases g with
            | lineString pts => rw [hg] at hf; simp at hf
            | otherKind => rfl
        rw [hnil]
        unfold lineStringVerts at ih
        rw [← ih]
        rfl
  rw [hverts]

/-- C8: once at least one line-string vertex exists (and every coordinate is
a finite float value, within `±f64::MAX`), the accumulated bbox — the one
copied into the archive header at lib.rs:43-46 — bounds every line-string
vertex, attains each of its four components at some vertex, and receives no
contribution from geometries of any other kind. -/
theorem C8_header_bbox (fs : List GeoFeature)
    (hne : lineStringVerts fs ≠ [])
    (hbound : ∀ v ∈ lineStringVerts fs,
      -f64MaxQ ≤ v.1 ∧ v.1 ≤ f64MaxQ ∧ -f64MaxQ ≤ v.2 ∧ v.2 ≤ f64MaxQ) :
    (∀ v ∈ lineStringVerts fs,
      (loadBBox fs).min_lon ≤ v.1 ∧ (loadBBox fs).min_lat ≤ v.2 ∧
      v.1 ≤ (loadBBox fs).max_lon ∧ v.2 ≤ (loadBBox fs).max_lat) ∧
    ((∃ v ∈ lineStringVerts fs, v.1 = (loadBBox fs).min_lon) ∧
     (∃ v ∈ lineStringVerts fs, v.2 = (loadBBox fs).min_lat) ∧
     (∃ v ∈ lineStringVerts fs, v.1 = (loadBBox fs).max_lon) ∧
     (∃ v ∈ lineStringVerts fs, v.2 = (loadBBox fs).max_lat)) ∧
    loadBBox fs = loadBBox (fs.filter isLineStringFeature) := by
  obtain ⟨v0, hv0⟩ : ∃ v, v ∈ lineStringVerts fs := by
    cases hvs : lineStringVerts fs with
    | nil => exact absurd hvs hne
    | cons v vs => exact ⟨v, hvs ▸ List.mem_cons_self v vs⟩
  have hcomp := foldl_addPt_components (lineStringVerts fs) BBoxQ.empty
  have hbb : loadBBox fs = (lineStringVerts fs).foldl BBoxQ.addPt BBoxQ.empty :=
    foldl_add_eq_foldl_addPt fs BBoxQ.empty
  obtain ⟨hc1, hc2, hc3, hc4⟩ := hcomp
  constructor
  · intro v hv
    rw [hbb, hc1, hc2, hc3, hc4]
    exact ⟨foldl_min_le_mem _ _ _ (List.mem_map_of_mem Prod.fst hv),
      foldl_min_le_mem _ _ _ (List.mem_map_of_mem Prod.snd hv),
      foldl_max_ge_mem _ _ _ (List.mem_map_of_mem Prod.fst hv),
      foldl_max_ge_mem _ _ _ (List.mem_map_of_mem Prod.snd hv)⟩
  refine ⟨⟨?_, ?_, ?_, ?_⟩, loadBBox_filter fs⟩
  · rw [hbb, hc1]
    rcases foldl_min_mem_or ((lineStringVerts fs).map Prod.fst) BBoxQ.empty.min_lon
        with h | h
    · refine ⟨v0, hv0, ?_⟩
      have hle := foldl_min_le_mem ((lineStringVerts fs).map Prod.fst)
        BBoxQ.empty.min_lon v0.1 (List.mem_map_of_mem Prod.fst hv0)
      have hub := (hbound v0 hv0).2.1
      have hsent : BBoxQ.empty.min_lon = f64MaxQ := rfl
      rw [h, hsent]
      rw [h, hsent] at hle
      exact le_antisymm hub hle
    · rcases List.mem_map.mp h with ⟨v, hv, hveq⟩
      exact ⟨v, hv, hveq⟩
  · rw [hbb, hc2]
    rcases foldl_min_mem_or ((lineStringVerts fs).map Prod.snd) BBoxQ.empty.min_lat
        with h | h
    · refine ⟨v0, hv0, ?_⟩
      have hle := foldl_min_le_mem ((lineStringVerts fs).map Prod.snd)
        BBoxQ.empty.min_lat v0.2 (List.mem_map_of_mem Prod.snd hv0)
      have hub := (hbound v0 hv0).2.2.2
      have hsent : BBoxQ.empty.min_lat = f64MaxQ := rfl
      rw [h, hsent]
      rw [h, hsent] at hle
      exact le_antisymm hub hle
    · rcases List.mem_map.mp h with ⟨v, hv, hveq⟩
      exact ⟨v, hv, hveq⟩
  · rw [hbb, hc3]
    rcases foldl_max_mem_or ((lineStringVerts fs).map Prod.fst) BBoxQ.empty.max_lon
        with h | h
    · refine ⟨v0, hv0, ?_⟩
      have hge := foldl_max_ge_mem ((lineStringVerts fs).map Prod.fst)
        BBoxQ.empty.max_lon v0.1 (List.mem_map_of_mem Prod.fst hv0)
      have hlb := (hbound v0 hv0).1
      have hsent : BBoxQ.empty.max_lon = -f64MaxQ := rfl
      rw [h, hsent]
      rw [h, hsent] at hge
      exact le_antisymm hge hlb
    · rcases List.mem_map.mp h with ⟨v, hv, hveq⟩
      exact ⟨v, hv, hveq⟩
  · rw [hbb, hc4]
    rcases foldl_max_mem_or ((lineStringVerts fs).map Prod.snd) BBoxQ.empty.max_lat
        with h | h
    · refine ⟨v0, hv0, ?_⟩
      have hge := foldl_max_ge_mem ((lineStringVerts fs).map Prod.snd)
        BBoxQ.empty.max_lat v0.2 (List.mem_map_of_mem Prod.snd hv0)
      have hlb := (hbound v0 hv0).2.2.1
      have hsent : BBoxQ.empty.max_lat = -f64MaxQ := rfl
      rw [h, hsent]
      rw [h, hsent] at hge
      exact le_antisymm hge hlb
    · rcases List.mem_map.mp h with ⟨v, hv, hveq⟩
      exact ⟨v, hv, hveq⟩

theorem four_le_f64MaxQ : (4 : ℚ) ≤ f64MaxQ := by
  have hpow : (2 : ℚ) ^ 1024 = 2 ^ 971 * 2 ^ 53 := by
    rw [← pow_add]
  have heq : f64MaxQ = 2 ^ 971 * ((2 : ℚ) ^ 53 - 1) := by
    unfold f64MaxQ
    rw [hpow]
    ring
  have h971 : (1 : ℚ) ≤ 2 ^ 971 := one_le_pow₀ (by norm_num)
  have h53 : (4 : ℚ) ≤ (2 : ℚ) ^ 53 - 1 := by norm_num
  have key : 1 * ((2 : ℚ) ^ 53 - 1) ≤ 2 ^ 971 * ((2 : ℚ) ^ 53 - 1) :=
    mul_le_mul_of_nonneg_right h971 (by linarith)
  rw [heq]
  linarith

/-- Witness for C8 on the sample input (one line-string, one other kind). -/
theorem C8_header_bbox_witness :
    (∃ v ∈ lineStringVerts sampleInput, v.1 = (loadBBox sampleInput).min_lon) ∧
    loadBBox sampleInput = loadBBox (sampleInput.filter isLineStringFeature) := by
  have hverts : lineStringVerts sampleInput = [(1, 2), (3, 4)] := by
    with_unfolding_all rfl
  have h4 := four_le_f64MaxQ
  have h := C8_header_bbox sampleInput (by rw [hverts]; simp)
    (by
      intro v hv
      rw [hverts] at hv
      fin_cases hv <;>
        refine ⟨by norm_num; linarith, by norm_num; linarith,
          by norm_num; linarith, by norm_num; linarith⟩)
  exact ⟨h.2.1.1, h.2.2⟩

/-! Determinism of the archive assembly: the collected per-tile results may
arrive in any order (the parallel fan-out guarantees nothing about completion
order); the assembled archive only depends on the set of keyed payloads. -/

theorem addAllTiles_not_mem :
    ∀ (l : List (Nat × α)) (m : Nat → Option α) (k : Nat),
      k ∉ l.map Prod.fst → addAllTiles l m k = m k := by
  intro l
  induction l with
  | nil => intro m k _; rfl
  | cons e rest ih =>
    intro m k hk
    obtain ⟨ek, ev⟩ := e
    have hk1 : k ≠ ek := by
      intro h
      exact hk (by rw [h]; exact List.mem_cons_self _ _)
    have hk2 : k ∉ rest.map Prod.fst := fun h =>
      hk (List.mem_cons_of_mem _ h)
    show addAllTiles rest (insertTile m ek ev) k = m k
    rw [ih _ _ hk2]
    unfold insertTile
    rw [if_neg hk1]

theorem addAllTiles_mem :
    ∀ (l : List (Nat × α)) (m : Nat → Option α) (k : Nat) (v : α),
      (l.map Prod.fst).Nodup → (k, v) ∈ l → addAllTiles l m k = some v := by
  intro l
  induction l with
  | nil => intro m k v _ hm; cases hm
  | cons e rest ih =>
    intro m k v hnd hm
    obtain ⟨ek, ev⟩ := e
    rw [List.map_cons] at hnd
    have hnd2 := List.nodup_cons.mp hnd
    rcases List.mem_cons.mp hm with he | hm2
    · cases he
      show addAllTiles rest (insertTile m k v) k = some v
      rw [addAllTiles_not_mem rest _ k hnd2.1]
      unfold insertTile
      rw [if_pos rfl]
    · exact ih _ _ _ hnd2.2 hm2

theorem assembleArchive_perm (l1 l2 : List (TileCoord × α))
    (hperm : List.Perm l1 l2)
    (hnd : (l2.map fun e => pmtilesId e.1).Nodup) :
    assembleArchive l1 = assembleArchive l2 := by
  have hkeys : ∀ l : List (TileCoord × α),
      ((l.map fun e => (pmtilesId e.1, e.2)).map Prod.fst)
        = l.map fun e => pmtilesId e.1 := by
    intro l
    rw [List.map_map]
    rfl
  have hpk : List.Perm (l1.map fun e => (pmtilesId e.1, e.2))
      (l2.map fun e => (pmtilesId e.1, e.2)) := hperm.map _
  have hnd2 : ((l2.map fun e => (pmtilesId e.1, e.2)).map Prod.fst).Nodup := by
    rw [hkeys]; exact hnd
  have hnd1 : ((l1.map fun e => (pmtilesId e.1, e.2)).map Prod.fst).Nodup :=
    ((hpk.map Prod.fst).nodup_iff).mpr hnd2
  unfold assembleArchive
  funext k
  by_cases hk : k ∈ (l2.map fun e => (pmtilesId e.1, e.2)).map Prod.fst
  · rcases List.mem_map.mp hk with ⟨p, hp, hpe⟩
    obtain ⟨pk, pv⟩ := p
    cases hpe
    rw [addAllTiles_mem _ _ _ pv hnd2 hp,
      addAllTiles_mem _ _ _ pv hnd1 (hpk.mem_iff.mpr hp)]
  · have hk1 : k ∉ (l1.map fun e => (pmtilesId e.1, e.2)).map Prod.fst := by
      intro h
      exact hk ((hpk.map Prod.fst).mem_iff.mp h)
    rw [addAllTiles_not_mem _ _ _ hk, addAllTiles_not_mem _ _ _ hk1]

theorem buildTiles_keys_sublist (transform : TileCoord → ℚ × ℚ → ℚ × ℚ)
    (encLen : List (ℚ × ℚ) → Nat) (options : Options)
    (candidates : TileCoord → List TreeFeature) :
    ∀ planned : List TileCoord,
      List.Sublist
        ((buildTiles transform encLen options candidates planned).map
          fun e => pmtilesId e.1)
        (planned.map pmtilesId) := by
  intro planned
  induction planned with
  | nil => exact List.Sublist.refl _
  | cons tc rest ih =>
    rw [List.map_cons]
    cases hmk : make_tile (transform tc) encLen options (candidates tc) with
    | none =>
      have hstep : buildTiles transform encLen options candidates (tc :: rest)
          = buildTiles transform encLen options candidates rest := by
        unfold buildTiles
        rw [List.filterMap_cons_none (by rw [hmk]; rfl)]
      rw [hstep]
      exact ih.trans (List.sublist_cons_self _ _)
    | some r =>
      have hstep : buildTiles transform encLen options candidates (tc :: rest)
          = (tc, r) :: buildTiles transform encLen options candidates rest := by
        unfold buildTiles
        rw [List.filterMap_cons_some (by rw [hmk]; rfl)]
      rw [hstep, List.map_cons]
      exact ih.cons₂ _

/-- C7: determinism of the assembled archive with respect to the completion
order of the parallel per-tile builds.  Everything upstream of the fan-out is
a pure function of the input and configuration, and downstream the archive is
keyed by the identifier derived from (z,x,y): for any permutation of the
collected per-tile results (with the planned identifiers distinct), the
assembled archive — metadata and every payload — is identical to the
canonical one, so two runs on identical input and configuration agree. -/
theorem C7_deterministic_assembly (transform : TileCoord → ℚ × ℚ → ℚ × ℚ)
    (encLen : List (ℚ × ℚ) → Nat) (options : Options)
    (candidates : TileCoord → List TreeFeature) (planned : List TileCoord)
    (res : List (TileCoord × (List TileFeature × Bool)))
    (hperm : List.Perm res
      (buildTiles transform encLen options candidates planned))
    (hnodup : (planned.map pmtilesId).Nodup) :
    assembleArchive res
      = assembleArchive (buildTiles transform encLen options candidates planned) :=
  assembleArchive_perm _ _ hperm
    (List.Sublist.nodup
      (buildTiles_keys_sublist transform encLen options candidates planned)
      hnodup)

/-- Witness for C7: two planned tiles, results collected in swapped order. -/
theorem C7_deterministic_assembly_witness :
    assembleArchive [((⟨0, 0, 1⟩ : TileCoord), ([⟨0, [(0, 0)], none⟩], false)),
        ((⟨0, 0, 0⟩ : TileCoord), ([⟨0, [(0, 0)], none⟩], false))]
      = assembleArchive (buildTiles (fun _ p => p) (fun _ => 1)
          ⟨"layer1", none, [0, 1], none⟩ (fun _ => [featNoProps])
          [⟨0, 0, 0⟩, ⟨0, 0, 1⟩]) := by
  have hb : buildTiles (fun _ p => p) (fun _ => 1)
      ⟨"layer1", none, [0, 1], none⟩ (fun _ => [featNoProps])
      [⟨0, 0, 0⟩, ⟨0, 0, 1⟩]
      = [((⟨0, 0, 0⟩ : TileCoord), ([⟨0, [(0, 0)], none⟩], false)),
         ((⟨0, 0, 1⟩ : TileCoord), ([⟨0, [(0, 0)], none⟩], false))] := by
    with_unfolding_all rfl
  apply C7_deterministic_assembly
  · rw [hb]
    exact List.Perm.swap _ _ _
  · decide

end Lines2Pmtiles
